import Mathlib

/-!
Verification development for the quokka-lua embeddable Lua runtime
(headers: quokka/engine/types.h, quokka/engine/vm.h, grpl/robotlua/bytecode.h).

The value model is embedded from the inline code of types.h.  C++ `double`
(lua_number) is modelled as `Rat`: the claims under study only exercise exact
numeric comparison on small values, never IEEE rounding.  C++ `int`
(lua_integer) is modelled as `Int`, the bounded inline string small_string<16>
as `String` (no claim exercises the 16-byte truncation), and the non-owning
`object_view` heap reference as its slot index `Nat`, whose equality is
reference identity exactly as documented at types.h:92-94.
-/

/- ===== Value model (types.h) ===== -/

abbrev lua_integer := Int

abbrev lua_number := Rat

abbrev lua_string := String

/-- Embeds `lua_value = std::variant<lua_nil, bool, lua_number, lua_integer,
lua_string, object_view, void*>` (types.h:60).  Constructor order follows the
variant's alternative order; `obj` holds the heap-slot index of an
`object_view`, `ptr` the numeric value of a `void*`. -/
inductive lua_value where
  | nil : lua_value
  | boolean : Bool → lua_value
  | num : lua_number → lua_value
  | int : lua_integer → lua_value
  | str : lua_string → lua_value
  | obj : Nat → lua_value
  | ptr : Nat → lua_value
deriving DecidableEq, Repr

/-- Embeds `std::variant::index()` on a `lua_value`, following the alternative
order of types.h:60. -/
def vindex : lua_value → Nat
  | .nil => 0
  | .boolean _ => 1
  | .num _ => 2
  | .int _ => 3
  | .str _ => 4
  | .obj _ => 5
  | .ptr _ => 6

/-- Embeds `is<lua_nil>(val)`. -/
def is_nil : lua_value → Bool
  | .nil => true
  | _ => false

/-- Embeds `is<bool>(val)`. -/
def is_bool : lua_value → Bool
  | .boolean _ => true
  | _ => false

/-- Embeds `std::get<bool>(val)` (defaulting outside the bool alternative,
which the embedded code never exercises). -/
def get_bool : lua_value → Bool
  | .boolean x => x
  | _ => false

/-- Embeds `is_numeric` (types.h:186-188): true on the lua_integer and
lua_number alternatives only. -/
def is_numeric : lua_value → Bool
  | .num _ => true
  | .int _ => true
  | _ => false

/-- Embeds `falsey` (types.h:216-218):
`is<lua_nil>(val) || (is<bool>(val) && !std::get<bool>(val))`. -/
def falsey (val : lua_value) : Bool :=
  is_nil val || (is_bool val && !get_bool val)

/-- Decimal digit value of a character, if it is a digit. -/
def digit_val (c : Char) : Option Nat :=
  if 48 ≤ c.toNat ∧ c.toNat ≤ 57 then some (c.toNat - 48) else none

/-- Numeric value of a nonempty all-digit character list. -/
def digits_val : List Char → Option Nat
  | [] => none
  | [c] => digit_val c
  | c :: cs =>
    match digit_val c, digits_val cs with
    | some d, some n => some (d * 10 ^ cs.length + n)
    | _, _ => none

/-- Modelled from the spec: `tonumber` (declared types.h:190, body not in
src/).  Spec 4.2 calls it a best-effort conversion reporting success or
failure, and spec 7 ("arithmetic on a non-coercible value") implies numeric
strings are coercible, as in reference Lua.  The model converts the two
numeric alternatives exactly and converts strings of decimal digits (the
fragment the claims exercise); every other value fails. -/
def tonumber : lua_value → Option lua_number
  | .num r => some r
  | .int i => some (i : Rat)
  | .str s => (digits_val s.data).map (fun n => (n : Rat))
  | _ => none

/-- Lexicographic strictly-less on character lists by code point; embeds
`operator<` of `small_string` as the spec describes it (smallstring.h is not
in src/; spec 3: strings compare lexicographically). -/
def lex_lt : List Char → List Char → Bool
  | [], [] => false
  | [], _ :: _ => true
  | _ :: _, [] => false
  | c :: cs, d :: ds =>
    if c.toNat < d.toNat then true
    else if d.toNat < c.toNat then false
    else lex_lt cs ds

/-- Lexicographic less-or-equal on character lists by code point. -/
def lex_le : List Char → List Char → Bool
  | [], _ => true
  | _ :: _, [] => false
  | c :: cs, d :: ds =>
    if c.toNat < d.toNat then true
    else if d.toNat < c.toNat then false
    else lex_le cs ds

/-- String strictly-less, lexicographic by code point. -/
def str_lt (a b : lua_string) : Bool := lex_lt a.data b.data

/-- String less-or-equal, lexicographic by code point. -/
def str_le (a b : lua_string) : Bool := lex_le a.data b.data

/-- Embeds `operator==` on lua_value (types.h:220-235).  The source guards on
`a.index() == b.index() || (is_numeric(a) && is_numeric(b))` and then compares
the payloads, with dedicated integer/number visitors coercing across the two
numeric alternatives; every pair failing the guard compares false.  The cases
below are exactly the pairs passing that guard. -/
def lua_eq : lua_value → lua_value → Bool
  | .nil, .nil => true
  | .boolean x, .boolean y => x == y
  | .num x, .num y => x == y
  | .num x, .int y => x == (y : Rat)
  | .int x, .num y => (x : Rat) == y
  | .int x, .int y => x == y
  | .str x, .str y => x == y
  | .obj x, .obj y => x == y
  | .ptr x, .ptr y => x == y
  | _, _ => false

/-- Embeds `operator<` on lua_value (types.h:241-251): under the same guard as
equality, if both operands coerce via `tonumber` they compare numerically,
else if the left operand is a string the two compare lexicographically, else
the result is false. -/
def lua_lt (a b : lua_value) : Bool :=
  if vindex a = vindex b ∨ (is_numeric a && is_numeric b) = true then
    match tonumber a, tonumber b with
    | some na, some nb => na < nb
    | _, _ =>
      match a, b with
      | .str x, .str y => str_lt x y
      | _, _ => false
  else false

/-- Embeds `operator<=` on lua_value (types.h:253-263), mirroring `lua_lt`
with non-strict comparisons. -/
def lua_le (a b : lua_value) : Bool :=
  if vindex a = vindex b ∨ (is_numeric a && is_numeric b) = true then
    match tonumber a, tonumber b with
    | some na, some nb => na ≤ nb
    | _, _ =>
      match a, b with
      | .str x, .str y => str_le x y
      | _, _ => false
  else false

/- ===== Table (types.h:96-128) ===== -/

/-- Embeds `lua_table::node` (types.h:97-102). -/
structure table_node where
  key : lua_value
  value : lua_value
deriving DecidableEq, Repr

/-- Modelled from the spec: `lua_table::get` (declared types.h:115, body not
in src/).  Spec 4.2: linear scan for the first entry whose key compares equal
under the value-model equality; an absent key yields nil. -/
def tbl_get : List table_node → lua_value → lua_value
  | [], _ => .nil
  | n :: rest, k => if lua_eq n.key k then n.value else tbl_get rest k

/-- Modelled from the spec: `lua_table::set` (declared types.h:127, body not
in src/).  Spec 4.2: a linear scan overwrites the value of the first entry
whose key compares equal; with no equal key the new entry is appended. -/
def tbl_set : List table_node → lua_value → lua_value → List table_node
  | [], k, v => [⟨k, v⟩]
  | n :: rest, k, v =>
    if lua_eq n.key k then ⟨n.key, v⟩ :: rest else n :: tbl_set rest k v

/-- Embeds `lua_table` (types.h:96-128): an ordered array of key/value nodes. -/
structure lua_table where
  entries : List table_node
deriving DecidableEq, Repr

/-- Table lookup, via the scan on the entry list. -/
def lua_table.get (t : lua_table) (k : lua_value) : lua_value :=
  tbl_get t.entries k

/-- Table update, via the scan on the entry list. -/
def lua_table.set (t : lua_table) (k v : lua_value) : lua_table :=
  ⟨tbl_set t.entries k v⟩

/-- Keys of the four primitive kinds named by the table claim. -/
def primitive_key : lua_value → Prop
  | .boolean _ => True
  | .num _ => True
  | .int _ => True
  | .str _ => True
  | _ => False

instance : DecidablePred primitive_key := by
  intro k
  cases k <;> simp [primitive_key] <;> infer_instance

/- ===== Basic lemmas on the value model ===== -/

theorem lua_eq_refl (k : lua_value) : lua_eq k k = true := by
  cases k <;> simp [lua_eq]

theorem tbl_get_after_set (l : List table_node) (k v : lua_value) :
    tbl_get (tbl_set l k v) k = v := by
  induction l with
  | nil => simp [tbl_set, tbl_get, lua_eq_refl]
  | cons n rest ih =>
    by_cases h : lua_eq n.key k = true
    · simp [tbl_set, h, tbl_get]
    · simp [tbl_set, h, tbl_get, ih]

theorem tbl_get_absent (l : List table_node) (k : lua_value)
    (h : ∀ n ∈ l, lua_eq n.key k = false) : tbl_get l k = .nil := by
  induction l with
  | nil => rfl
  | cons n rest ih =>
    have hn := h n (by simp)
    simp [tbl_get, hn]
    exact ih (fun m hm => h m (by simp [hm]))

theorem tbl_set_present_length (l : List table_node) (k v : lua_value)
    (h : ∃ n ∈ l, lua_eq n.key k = true) :
    (tbl_set l k v).length = l.length := by
  induction l with
  | nil => simp at h
  | cons n rest ih =>
    by_cases hn : lua_eq n.key k = true
    · simp [tbl_set, hn]
    · have : ∃ m ∈ rest, lua_eq m.key k = true := by
        rcases h with ⟨m, hm, he⟩
        rcases List.mem_cons.mp hm with rfl | hm2
        · exact absurd he hn
        · exact ⟨m, hm2, he⟩
      simp [tbl_set, hn, ih this]

theorem tbl_set_absent_append (l : List table_node) (k v : lua_value)
    (h : ∀ n ∈ l, lua_eq n.key k = false) :
    tbl_set l k v = l ++ [⟨k, v⟩] := by
  induction l with
  | nil => rfl
  | cons n rest ih =>
    have hn := h n (by simp)
    simp [tbl_set, hn]
    exact ih (fun m hm => h m (by simp [hm]))

/- ===== Claim theorems: C10, C6, C7, C5 ===== -/

/-- C10: `falsey(v)` returns true exactly when `v` is nil or the boolean
false; every other value, including integer 0, float 0.0 and the empty
string, is truthy. -/
theorem falsey_iff_nil_or_false (v : lua_value) :
    falsey v = true ↔ (v = .nil ∨ v = .boolean false) := by
  cases v with
  | boolean x => cases x <;> simp [falsey, is_nil, is_bool, get_bool]
  | _ => simp [falsey, is_nil, is_bool, get_bool]

/-- C6: `operator==` on lua_value coerces across the integer and float
alternatives (so integer 1 equals float 1.0 and the two resolve to the same
table entry), compares object references by slot identity and never
structurally (the comparison consults only the reference, not the heap), and
returns false on every pair of values of different non-numeric types. -/
theorem lua_eq_coerce_identity_mixed :
    (∀ (i : lua_integer) (r : lua_number),
      lua_eq (.int i) (.num r) = ((i : Rat) == r)
      ∧ lua_eq (.num r) (.int i) = (r == (i : Rat)))
    ∧ (∀ x y : Nat, lua_eq (.obj x) (.obj y) = (x == y))
    ∧ (∀ a b : lua_value, vindex a ≠ vindex b →
        ¬(is_numeric a = true ∧ is_numeric b = true) → lua_eq a b = false) := by
  refine ⟨fun i r => ⟨rfl, rfl⟩, fun x y => rfl, ?_⟩
  intro a b hidx hnum
  cases a <;> cases b <;>
    simp_all [lua_eq, vindex, is_numeric]

/-- C6 witness: integer 1 equals float 1.0 both ways; two distinct object
references are unequal whatever they point at; and a string/boolean pair of
different non-numeric types compares false. -/
theorem lua_eq_coerce_identity_mixed_witness :
    lua_eq (.int 1) (.num 1) = true ∧ lua_eq (.obj 0) (.obj 1) = false
    ∧ lua_eq (.str "x") (.boolean true) = false := by
  refine ⟨?_, ?_, ?_⟩
  · rw [(lua_eq_coerce_identity_mixed.1 1 1).1]; decide
  · rw [lua_eq_coerce_identity_mixed.2.1 0 1]; decide
  · exact lua_eq_coerce_identity_mixed.2.2 (.str "x") (.boolean true)
      (by decide) (by decide)

/-- C7 counterexample: the ordering operator on the string values "10" and
"9" returns false, although "10" strictly precedes "9" lexicographically, so
string lua_values do not always compare lexicographically: both parse as
numbers, and 10 < 9 fails. -/
theorem lua_lt_numeric_strings_cex :
    lua_lt (.str "10") (.str "9") = false
    ∧ str_lt "10" "9" = true := by
  constructor
  · rfl
  · rfl

/-- C7 amended: `operator<` and `operator<=` compare two string lua_values
lexicographically whenever at least one of the two does not coerce to a
number; two numerically-coercible strings compare by their numeric values
(so the string "10" orders after the string "9"). -/
theorem lua_lt_strings_amended :
    (∀ s t : lua_string,
      tonumber (.str s) = none ∨ tonumber (.str t) = none →
      lua_lt (.str s) (.str t) = str_lt s t
      ∧ lua_le (.str s) (.str t) = str_le s t)
    ∧ (∀ (s t : lua_string) (na nb : lua_number),
      tonumber (.str s) = some na → tonumber (.str t) = some nb →
      lua_lt (.str s) (.str t) = decide (na < nb)
      ∧ lua_le (.str s) (.str t) = decide (na ≤ nb)) := by
  constructor
  · intro s t h
    rcases h with h | h <;>
      · constructor <;>
          · simp only [lua_lt, lua_le, vindex, is_numeric]
            rw [if_pos (Or.inl trivial)]
            rcases hs : tonumber (.str s) with _ | ns <;>
              rcases ht : tonumber (.str t) with _ | nt <;>
              simp_all
  · intro s t na nb hs ht
    constructor <;>
      · simp only [lua_lt, lua_le, vindex, is_numeric]
        rw [if_pos (Or.inl trivial), hs, ht]

/-- C7 amended witness: "a" does not coerce, so "a" vs "b" is lexicographic;
"10" and "9" both coerce, so they compare as 10 vs 9. -/
theorem lua_lt_strings_amended_witness :
    (lua_lt (.str "a") (.str "b") = str_lt "a" "b"
      ∧ lua_le (.str "a") (.str "b") = str_le "a" "b")
    ∧ (lua_lt (.str "10") (.str "9") = decide ((10 : lua_number) < 9)
      ∧ lua_le (.str "10") (.str "9") = decide ((10 : lua_number) ≤ 9)) := by
  constructor
  · exact lua_lt_strings_amended.1 "a" "b" (Or.inl (by decide))
  · exact lua_lt_strings_amended.2 "10" "9" 10 9 (by decide) (by decide)

/-- C5: for a table and a key of bool, integer, float or string type, `set`
then `get` on that key returns the value just stored (the first equal entry
is overwritten in place, an absent key appends one new entry), and `get` on a
key absent from the table returns nil. -/
theorem table_set_get_roundtrip :
    (∀ (t : lua_table) (k v : lua_value), primitive_key k →
      (t.set k v).get k = v)
    ∧ (∀ (t : lua_table) (k v : lua_value),
      (∃ n ∈ t.entries, lua_eq n.key k = true) →
      ((t.set k v).entries.length = t.entries.length))
    ∧ (∀ (t : lua_table) (k v : lua_value),
      (∀ n ∈ t.entries, lua_eq n.key k = false) →
      (t.set k v).entries = t.entries ++ [⟨k, v⟩])
    ∧ (∀ (t : lua_table) (k : lua_value),
      (∀ n ∈ t.entries, lua_eq n.key k = false) → t.get k = .nil) := by
  refine ⟨?_, ?_, ?_, ?_⟩
  · intro t k v _
    exact tbl_get_after_set t.entries k v
  · intro t k v h
    exact tbl_set_present_length t.entries k v h
  · intro t k v h
    exact tbl_set_absent_append t.entries k v h
  · intro t k h
    exact tbl_get_absent t.entries k h

/-- C5 witness: storing under integer key 1 in the empty table and reading it
back returns the stored string; the absent key "y" reads as nil; the append
and overwrite branches at concrete tables. -/
theorem table_set_get_roundtrip_witness :
    ((lua_table.mk []).set (.int 1) (.str "a")).get (.int 1) = .str "a"
    ∧ ((lua_table.mk [⟨.int 1, .nil⟩]).set (.int 1) (.int 2)).entries.length
        = (lua_table.mk [⟨.int 1, .nil⟩]).entries.length
    ∧ ((lua_table.mk []).set (.boolean true) (.int 7)).entries
        = [] ++ [⟨.boolean true, .int 7⟩]
    ∧ (lua_table.mk [⟨.int 1, .int 2⟩]).get (.str "y") = .nil := by
  refine ⟨?_, ?_, ?_, ?_⟩
  · exact table_set_get_roundtrip.1 ⟨[]⟩ (.int 1) (.str "a") (by decide)
  · exact table_set_get_roundtrip.2.1 ⟨[⟨.int 1, .nil⟩]⟩ (.int 1) (.int 2)
      ⟨⟨.int 1, .nil⟩, by simp, by decide⟩
  · exact table_set_get_roundtrip.2.2.1 ⟨[]⟩ (.boolean true) (.int 7)
      (by simp)
  · exact table_set_get_roundtrip.2.2.2 ⟨[⟨.int 1, .int 2⟩]⟩ (.str "y")
      (by intro n hn; simp at hn; subst hn; decide)

/- ===== Object / upvalue heap allocation (vm.h:84-95) ===== -/

/-- Scan embedded from the loop of `first_avail_idx` (vm.h:86-88): index of
the first slot whose payload is unassigned, i.e. whose reference count is
zero (spec 4.3: a count reaching zero resets the slot's payload and marks it
reusable).  A slot is its reference count. -/
def first_avail_loop : List Nat → Option Nat
  | [] => none
  | c :: rest => if c = 0 then some 0 else (first_avail_loop rest).map (· + 1)

/-- Embeds `first_avail_idx` (vm.h:84-95): reuse the first unassigned slot,
else grow the vector by one fresh (count-zero) slot and return its index.
`alloc_object()` / `alloc_upval()` (vm.h:43-44, bodies not in src/) claim the
slot this returns on `_objects` / `_upvals`. -/
def first_avail_idx (h : List Nat) : Nat × List Nat :=
  match first_avail_loop h with
  | some i => (i, h)
  | none => (h.length, h ++ [0])

theorem list_getD_of_ge {α : Type} (l : List α) (u : Nat) (d : α)
    (h : l.length ≤ u) : l.getD u d = d := by
  induction l generalizing u with
  | nil => cases u <;> rfl
  | cons c rest ih =>
    cases u with
    | zero => simp at h
    | succ u => exact ih u (by simpa using h)

theorem list_getD_set_self {α : Type} (l : List α) (i : Nat) (v d : α)
    (h : i < l.length) : (l.set i v).getD i d = v := by
  induction l generalizing i with
  | nil => simp at h
  | cons c rest ih =>
    cases i with
    | zero => rfl
    | succ i => exact ih i (by simpa using h)

theorem list_getD_set_ne {α : Type} (l : List α) (i j : Nat) (v d : α)
    (h : i ≠ j) : (l.set i v).getD j d = l.getD j d := by
  induction l generalizing i j with
  | nil => rfl
  | cons c rest ih =>
    cases i with
    | zero =>
      cases j with
      | zero => exact absurd rfl h
      | succ j => rfl
    | succ i =>
      cases j with
      | zero => rfl
      | succ j => exact ih i j (fun he => h (by simp [he]))

theorem list_getD_append_len {α : Type} (l : List α) (x d : α) :
    (l ++ [x]).getD l.length d = x := by
  induction l with
  | nil => rfl
  | cons c rest ih => exact ih

theorem list_getD_map {α β : Type} (f : α → β) (l : List α) (u : Nat)
    (d : β) (e : α) (h : u < l.length) :
    (l.map f).getD u d = f (l.getD u e) := by
  induction l generalizing u with
  | nil => simp at h
  | cons c rest ih =>
    cases u with
    | zero => rfl
    | succ u => exact ih u (by simpa using h)

theorem favl_some_spec (h : List Nat) (i : Nat)
    (he : first_avail_loop h = some i) :
    i < h.length ∧ h.getD i 1 = 0 ∧ ∀ j < i, h.getD j 1 ≠ 0 := by
  induction h generalizing i with
  | nil => simp [first_avail_loop] at he
  | cons c rest ih =>
    by_cases hc : c = 0
    · simp [first_avail_loop, hc] at he
      subst he
      refine ⟨by simp, by simpa using hc, ?_⟩
      intro j hj
      omega
    · simp [first_avail_loop, hc] at he
      rcases he with ⟨i0, hi0, rfl⟩
      obtain ⟨h1, h2, h3⟩ := ih i0 hi0
      refine ⟨by simpa using h1, by simpa using h2, ?_⟩
      intro j hj
      cases j with
      | zero => simpa using hc
      | succ j => exact h3 j (by omega)

theorem favl_none_spec (h : List Nat)
    (he : first_avail_loop h = none) : ∀ j < h.length, h.getD j 1 ≠ 0 := by
  induction h with
  | nil => intro j hj; simp at hj
  | cons c rest ih =>
    by_cases hc : c = 0
    · simp [first_avail_loop, hc] at he
    · simp [first_avail_loop, hc] at he
      intro j hj
      cases j with
      | zero => simpa using hc
      | succ j => exact ih he j (by simpa using hj)

theorem favl_complete (h : List Nat) (i : Nat) (hlt : i < h.length)
    (hfree : h.getD i 1 = 0) (hbusy : ∀ j < i, h.getD j 1 ≠ 0) :
    first_avail_loop h = some i := by
  induction h generalizing i with
  | nil => simp at hlt
  | cons c rest ih =>
    cases i with
    | zero =>
      have : c = 0 := by simpa using hfree
      simp [first_avail_loop, this]
    | succ i =>
      have hc : c ≠ 0 := by simpa using hbusy 0 (by omega)
      have := ih i (by simpa using hlt) (by simpa using hfree)
        (fun j hj => by simpa using hbusy (j + 1) (by omega))
      simp [first_avail_loop, hc, this]

/-- C8: `first_avail_idx` (the allocation core of `alloc_object` and
`alloc_upval`) returns the lowest-indexed slot whose reference count is zero,
grows the heap by exactly one slot only when no such slot exists, and after a
slot's count drops to zero the next allocation reuses that freed slot (no
growth; exactly that index when no lower slot is free), bounding the heap to
the high-water mark of simultaneously live objects. -/
theorem alloc_reuses_lowest_free :
    (∀ h : List Nat,
      (first_avail_idx h).2.getD (first_avail_idx h).1 1 = 0
      ∧ (∀ j < (first_avail_idx h).1, h.getD j 1 ≠ 0)
      ∧ (if ∃ j < h.length, h.getD j 1 = 0
         then (first_avail_idx h).2 = h ∧ (first_avail_idx h).1 < h.length
         else (first_avail_idx h).2 = h ++ [0]
              ∧ (first_avail_idx h).1 = h.length))
    ∧ (∀ (h : List Nat) (i : Nat), i < h.length →
        (∀ j < i, h.getD j 1 ≠ 0) →
        first_avail_idx (h.set i 0) = (i, h.set i 0)) := by
  constructor
  · intro h
    rcases he : first_avail_loop h with _ | i
    · have hb := favl_none_spec h he
      have hex : ¬∃ j < h.length, h.getD j 1 = 0 := by
        rintro ⟨j, hj, hz⟩
        exact hb j hj hz
      refine ⟨?_, ?_, ?_⟩
      · simp [first_avail_idx, he, list_getD_append_len]
      · intro j hj
        simp [first_avail_idx, he] at hj
        exact hb j (by
          by_contra hge
          have := list_getD_of_ge h j 1 (by omega)
          omega)
      · rw [if_neg hex]
        simp [first_avail_idx, he]
    · obtain ⟨h1, h2, h3⟩ := favl_some_spec h i he
      have hex : ∃ j < h.length, h.getD j 1 = 0 := ⟨i, h1, h2⟩
      refine ⟨?_, ?_, ?_⟩
      · simpa [first_avail_idx, he] using h2
      · intro j hj
        exact h3 j (by simpa [first_avail_idx, he] using hj)
      · rw [if_pos hex]
        simp [first_avail_idx, he, h1]
  · intro h i hlt hbusy
    have hfree : (h.set i 0).getD i 1 = 0 := list_getD_set_self h i 0 1 hlt
    have hbusy2 : ∀ j < i, (h.set i 0).getD j 1 ≠ 0 := by
      intro j hj
      rw [list_getD_set_ne h i j 0 1 (by omega)]
      exact hbusy j hj
    have := favl_complete (h.set i 0) i (by simpa using hlt) hfree hbusy2
    simp [first_avail_idx, this]

/-- C8 witness: in the heap [1, 1] (both slots referenced), releasing slot 1
to count zero makes the next allocation return exactly index 1 with no
growth. -/
theorem alloc_reuses_lowest_free_witness :
    first_avail_idx ([1, 1].set 1 0) = (1, [1, 1].set 1 0) :=
  alloc_reuses_lowest_free.2 [1, 1] 1 (by decide) (by decide)

/- ===== Upvalues and closures (types.h:62, types.h:148-182, vm.h:76) ===== -/

/-- Embeds `upval_variant_t = std::variant<lua_nil, size_t, lua_value>`
(types.h:62): an upvalue cell is unassigned, open onto a register-stack slot,
or closed over its own value. -/
inductive upval_variant where
  | unassigned : upval_variant
  | opened : Nat → upval_variant
  | closed : lua_value → upval_variant
deriving DecidableEq, Repr

/-- Register stack and upvalue heap of the engine, the state that upvalue
reads, writes and `close_upvals` touch (_registers and _upvals, vm.h:97-101). -/
structure closure_state where
  regs : List lua_value
  upvals : List upval_variant
deriving DecidableEq, Repr

/-- Modelled from the spec: reading through an upvalue (execution engine body
not in src/).  Spec 4.4: while open, the upvalue addresses the frame's
register slot directly; once closed it owns its value. -/
def upval_get (s : closure_state) (u : Nat) : lua_value :=
  match s.upvals.getD u .unassigned with
  | .opened i => s.regs.getD i .nil
  | .closed v => v
  | .unassigned => .nil

/-- Modelled from the spec: writing through an upvalue (execution engine body
not in src/).  Spec 4.4: while open, writes go to the addressed register slot
(the same storage as the original local); once closed they replace the owned
value. -/
def upval_set (s : closure_state) (u : Nat) (v : lua_value) : closure_state :=
  match s.upvals.getD u .unassigned with
  | .opened i => { s with regs := s.regs.set i v }
  | .closed _ => { s with upvals := s.upvals.set u (.closed v) }
  | .unassigned => s

/-- Modelled from the spec: `close_upvals(level)` (declared vm.h:76, body not
in src/).  Spec 4.4: every open upvalue addressing a register at or above
`level` has the register's current value copied into the cell and its state
flipped to closed, decoupling it from the register stack. -/
def close_upvals (s : closure_state) (level : Nat) : closure_state :=
  { s with
    upvals := s.upvals.map (fun uv =>
      match uv with
      | .opened i => if level ≤ i then .closed (s.regs.getD i .nil) else uv
      | _ => uv) }

/-- One invocation of the counter-pattern closure of types.h:152-160: read
the captured variable through upvalue `u`, add one, write it back through the
upvalue, return the new value. -/
def counter_invoke (s : closure_state) (u : Nat) : closure_state × lua_integer :=
  match upval_get s u with
  | .int n => (upval_set s u (.int (n + 1)), n + 1)
  | _ => (s, 0)

/-- Repeated invocations of the counter closure, collecting the results. -/
def counter_run (s : closure_state) (u : Nat) : Nat → closure_state × List lua_integer
  | 0 => (s, [])
  | k + 1 =>
    let p := counter_invoke s u
    let q := counter_run p.1 u k
    (q.1, p.2 :: q.2)

theorem int_range_map_shift (m : Int) (k : Nat) :
    (List.range (k + 1)).map (fun (j : Nat) => m + 1 + (j : Int))
      = (m + 1) :: (List.range k).map (fun (j : Nat) => m + 1 + 1 + (j : Int)) := by
  rw [List.range_succ_eq_map, List.map_cons, List.map_map]
  congr 1
  · simp
  · apply List.map_congr_left
    intro j _
    simp only [Function.comp_apply]
    push_cast
    ring

theorem upval_getD_ne_unassigned (s : closure_state) (u : Nat)
    (h : s.upvals.getD u .unassigned ≠ .unassigned) : u < s.upvals.length := by
  by_contra hge
  exact h (list_getD_of_ge s.upvals u .unassigned (by omega))

theorem counter_invoke_closed (s : closure_state) (u : Nat) (m : lua_integer)
    (h : s.upvals.getD u .unassigned = .closed (.int m)) :
    counter_invoke s u
      = ({ s with upvals := s.upvals.set u (.closed (.int (m + 1))) }, m + 1) := by
  unfold counter_invoke upval_get upval_set
  rw [h]

theorem counter_run_closed (k : Nat) (s : closure_state) (u : Nat)
    (m : lua_integer) (h : s.upvals.getD u .unassigned = .closed (.int m)) :
    (counter_run s u k).2 = (List.range k).map (fun (j : Nat) => m + 1 + (j : Int))
    ∧ (counter_run s u k).1.upvals.getD u .unassigned
        = .closed (.int (m + (k : Int))) := by
  induction k generalizing s m with
  | zero => exact ⟨rfl, by simpa using h⟩
  | succ k ih =>
    have hu : u < s.upvals.length :=
      upval_getD_ne_unassigned s u (by rw [h]; intro hc; cases hc)
    have hstep := counter_invoke_closed s u m h
    have hnext : ({ s with upvals := s.upvals.set u (.closed (.int (m + 1))) }
        : closure_state).upvals.getD u .unassigned = .closed (.int (m + 1)) := by
      simpa using list_getD_set_self s.upvals u (.closed (.int (m + 1))) .unassigned hu
    obtain ⟨ih1, ih2⟩ := ih _ (m + 1) hnext
    constructor
    · rw [int_range_map_shift m k]
      simp only [counter_run, hstep, ih1]
    · simp only [counter_run, hstep]
      rw [ih2]
      congr 2
      push_cast
      ring

/-- C2: a closure capturing a local of `f` through an open upvalue keeps
reaching that variable after the frame ends: `close_upvals(level)` copies the
register's current value `m` into the cell and flips it to closed (no write
is lost at the transition), and `k` subsequent invocations of the counter
closure return exactly m+1, m+2, ..., m+k — a strictly increasing sequence,
1, 2, 3, ... from m = 0. -/
theorem closure_counter_after_close (s : closure_state) (u i level : Nat)
    (m : lua_integer) (k : Nat)
    (hopen : s.upvals.getD u .unassigned = .opened i)
    (hlev : level ≤ i)
    (hval : s.regs.getD i .nil = .int m) :
    (close_upvals s level).upvals.getD u .unassigned = .closed (.int m)
    ∧ (counter_run (close_upvals s level) u k).2
        = (List.range k).map (fun (j : Nat) => m + 1 + (j : Int))
    ∧ List.Pairwise (fun x y => x < y)
        (counter_run (close_upvals s level) u k).2 := by
  have hu : u < s.upvals.length :=
    upval_getD_ne_unassigned s u (by rw [hopen]; intro hc; cases hc)
  have hclosed : (close_upvals s level).upvals.getD u .unassigned
      = .closed (.int m) := by
    simp only [close_upvals]
    rw [list_getD_map _ s.upvals u upval_variant.unassigned
      upval_variant.unassigned hu, hopen]
    show (if level ≤ i then upval_variant.closed (s.regs.getD i lua_value.nil)
        else upval_variant.opened i) = upval_variant.closed (lua_value.int m)
    rw [if_pos hlev, hval]
  obtain ⟨h1, h2⟩ := counter_run_closed k (close_upvals s level) u m hclosed
  refine ⟨hclosed, h1, ?_⟩
  rw [h1, List.pairwise_map]
  refine (List.pairwise_lt_range k).imp ?_
  intro a b hab
  show m + 1 + (a : Int) < m + 1 + (b : Int)
  have hab2 : (a : Int) < (b : Int) := by exact_mod_cast hab
  exact add_lt_add_left hab2 (m + 1)

/-- C2 witness: a single register holding 0 captured by an open upvalue:
closing at level 0 stores 0 in the cell, and three invocations of the counter
yield 1, 2, 3. -/
theorem closure_counter_after_close_witness :
    (close_upvals ⟨[.int 0], [.opened 0]⟩ 0).upvals.getD 0 .unassigned
      = .closed (.int 0)
    ∧ (counter_run (close_upvals ⟨[.int 0], [.opened 0]⟩ 0) 0 3).2 = [1, 2, 3] := by
  have h := closure_counter_after_close ⟨[.int 0], [.opened 0]⟩ 0 0 0 0 3
    rfl (by decide) rfl
  refine ⟨h.1, ?_⟩
  rw [h.2.1]
  decide

/- ===== Error recovery of the execution engine (vm.h:49, 97-98) ===== -/

/-- Abstract script actions for the recovery model of `call` (vm.h:49, body
not in src/): a global-table write, a failing step (RuntimeError or
ResourceError), a nested call, and sequencing.  This is the alphabet the
recovery claim quantifies over. -/
inductive vm_act where
  | nop : vm_act
  | seq : vm_act → vm_act → vm_act
  | set_global : lua_value → lua_value → vm_act
  | fail : vm_act
  | nested : vm_act → vm_act
deriving DecidableEq, Repr

/-- Engine state for the recovery model: register stack, call-info stack (one
entry per activation, carrying its base), and the distinguished global
environment table (_registers, _callinfo, _distinguished_env; vm.h:97-117). -/
structure vm_state where
  regs : List lua_value
  callinfo : List Nat
  globals : List table_node
deriving DecidableEq, Repr

/-- Push one activation: a call-info entry and this frame's register window
(one slot suffices for the model). -/
def push_frame (s : vm_state) : vm_state :=
  { s with regs := s.regs ++ [.nil], callinfo := s.callinfo ++ [s.regs.length] }

/-- Pop one activation on normal return (postcall pops the active call-info
and releases the frame's registers). -/
def pop_frame (s : vm_state) : vm_state :=
  { s with regs := s.regs.dropLast, callinfo := s.callinfo.dropLast }

/-- Modelled from the spec: one step of `execute` (vm.h:72, body not in
src/).  Spec 4.4/7: global writes mutate the VM-owned environment table,
nested calls push an activation and pop it on successful return, and a
RuntimeError/ResourceError aborts the current call chain, propagating upward
without popping (the top-level `call` performs the unwinding).  Returns the
state and whether execution completed without error. -/
def vm_run : vm_state → vm_act → vm_state × Bool
  | s, .nop => (s, true)
  | s, .seq a b =>
    match vm_run s a with
    | (s1, true) => vm_run s1 b
    | (s1, false) => (s1, false)
  | s, .set_global k v => ({ s with globals := tbl_set s.globals k v }, true)
  | s, .fail => (s, false)
  | s, .nested a =>
    match vm_run (push_frame s) a with
    | (s1, true) => (pop_frame s1, true)
    | (s1, false) => (s1, false)

/-- Modelled from the spec: the host-facing `call` (vm.h:49, body not in
src/).  Spec 7: on RuntimeError/ResourceError the engine unwinds its
call-info and register stacks back to the pre-call depth and remains usable;
the global environment table is not rolled back. -/
def vm_call (s : vm_state) (a : vm_act) : vm_state × Bool :=
  match vm_run (push_frame s) a with
  | (s1, true) => (pop_frame s1, true)
  | (s1, false) =>
    ({ s1 with regs := s1.regs.take s.regs.length,
               callinfo := s1.callinfo.take s.callinfo.length }, false)

theorem vm_run_ok_lengths (a : vm_act) :
    ∀ s s1 : vm_state, vm_run s a = (s1, true) →
      s1.regs.length = s.regs.length
      ∧ s1.callinfo.length = s.callinfo.length := by
  induction a with
  | nop =>
    intro s s1 h
    cases h
    exact ⟨rfl, rfl⟩
  | seq a b iha ihb =>
    intro s s1 h
    rcases heq : vm_run s a with ⟨s2, ok⟩
    cases ok
    · rw [vm_run, heq] at h
      cases h
    · rw [vm_run, heq] at h
      obtain ⟨h1, h2⟩ := iha s s2 heq
      obtain ⟨h3, h4⟩ := ihb s2 s1 h
      exact ⟨h3.trans h1, h4.trans h2⟩
  | set_global k v =>
    intro s s1 h
    cases h
    exact ⟨rfl, rfl⟩
  | fail =>
    intro s s1 h
    cases h
  | nested a iha =>
    intro s s1 h
    rcases heq : vm_run (push_frame s) a with ⟨s2, ok⟩
    cases ok
    · rw [vm_run, heq] at h
      cases h
    · rw [vm_run, heq] at h
      cases h
      obtain ⟨h1, h2⟩ := iha (push_frame s) s2 heq
      constructor
      · simp [pop_frame, h1, push_frame]
      · simp [pop_frame, h2, push_frame]

theorem vm_run_err_lengths (a : vm_act) :
    ∀ s s1 : vm_state, vm_run s a = (s1, false) →
      s.regs.length ≤ s1.regs.length
      ∧ s.callinfo.length ≤ s1.callinfo.length := by
  induction a with
  | nop =>
    intro s s1 h
    cases h
  | seq a b iha ihb =>
    intro s s1 h
    rcases heq : vm_run s a with ⟨s2, ok⟩
    cases ok
    · rw [vm_run, heq] at h
      cases h
      exact iha s s1 heq
    · rw [vm_run, heq] at h
      obtain ⟨h1, h2⟩ := vm_run_ok_lengths a s s2 heq
      obtain ⟨h3, h4⟩ := ihb s2 s1 h
      omega
  | set_global k v =>
    intro s s1 h
    cases h
  | fail =>
    intro s s1 h
    cases h
    exact ⟨le_refl _, le_refl _⟩
  | nested a iha =>
    intro s s1 h
    rcases heq : vm_run (push_frame s) a with ⟨s2, ok⟩
    cases ok
    · rw [vm_run, heq] at h
      cases h
      obtain ⟨h1, h2⟩ := iha (push_frame s) s1 heq
      simp [push_frame] at h1 h2
      omega
    · rw [vm_run, heq] at h
      cases h

/-- C9 amended: whether the call chain completes or fails with a
RuntimeError/ResourceError, `call` leaves the call-info stack and the
register stack at exactly their pre-call depths, so the VM stays usable for
subsequent calls; global-environment writes made before a failure, however,
persist (the claim's stronger "as if the failed chain had never been entered"
does not hold, see the counterexample). -/
theorem vm_call_restores_stack_depths (s : vm_state) (a : vm_act) :
    (vm_call s a).1.regs.length = s.regs.length
    ∧ (vm_call s a).1.callinfo.length = s.callinfo.length := by
  rcases heq : vm_run (push_frame s) a with ⟨s1, ok⟩
  cases ok
  · obtain ⟨h1, h2⟩ := vm_run_err_lengths a (push_frame s) s1 heq
    simp [push_frame] at h1 h2
    constructor
    · simp [vm_call, heq]
      omega
    · simp [vm_call, heq]
      omega
  · obtain ⟨h1, h2⟩ := vm_run_ok_lengths a (push_frame s) s1 heq
    simp [push_frame] at h1 h2
    constructor
    · simp [vm_call, heq, pop_frame, h1]
    · simp [vm_call, heq, pop_frame, h2]

/-- C9 counterexample: a call that writes global "x" := 5 and then fails.
The failed call reports failure, yet the surviving state differs from the
pre-call state: the global table now maps "x" to 5 (a subsequent call, e.g.
through `push_global`, observes 5 where it would have observed nil), so a
subsequent call does not behave as if the failed chain had never been
entered, even though the stack depths are fully restored. -/
theorem vm_call_not_as_if_never_entered :
    (vm_call ⟨[], [], []⟩ (.seq (.set_global (.str "x") (.int 5)) .fail)).2
      = false
    ∧ tbl_get
        (vm_call ⟨[], [], []⟩
          (.seq (.set_global (.str "x") (.int 5)) .fail)).1.globals
        (.str "x") = .int 5
    ∧ tbl_get (⟨[], [], []⟩ : vm_state).globals (.str "x") = .nil
    ∧ (vm_call ⟨[], [], []⟩
        (.seq (.set_global (.str "x") (.int 5)) .fail)).1
        ≠ (⟨[], [], []⟩ : vm_state) := by
  refine ⟨rfl, ?_, rfl, ?_⟩ <;> decide

/- ===== POSTCALL result relocation (vm.h:15, 74) ===== -/

/-- Embeds `MULTIRET = -1` (vm.h:15): request for all produced results. -/
def MULTIRET : Int := -1

/-- Modelled from the spec: the result-moving loop of POSTCALL (postcall is
declared vm.h:74, body not in src/).  Copies `n` values one register at a
time, ascending, from the produced-results window to the caller's window. -/
def move_results (regs : List lua_value) (dst src : Nat) : Nat → List lua_value
  | 0 => regs
  | n + 1 => move_results (regs.set dst (regs.getD src .nil)) (dst + 1) (src + 1) n

/-- Modelled from the spec: the nil-padding loop of POSTCALL, filling `n`
registers from `a` with nil. -/
def set_nils (regs : List lua_value) (a : Nat) : Nat → List lua_value
  | 0 => regs
  | n + 1 => set_nils (regs.set a .nil) (a + 1) n

/-- Modelled from the spec: `postcall` (declared vm.h:74, body not in src/).
Spec 4.4: relocate the `nres` produced results (starting at register
`first_result`) into the caller's window starting at the original callee
register `func_idx`, truncating or nil-padding to the requested count
`wanted`; for `wanted = MULTIRET` every produced result is kept and the
logical top is set just past them.  Returns the registers and the new
logical top. -/
def postcall (regs : List lua_value) (func_idx first_result nres : Nat)
    (wanted : Int) : List lua_value × Nat :=
  if wanted = MULTIRET then
    (move_results regs func_idx first_result nres, func_idx + nres)
  else
    let w := wanted.toNat
    let ncopy := min nres w
    (set_nils (move_results regs func_idx first_result ncopy)
      (func_idx + ncopy) (w - ncopy), func_idx + w)

/-- Contents of the register window of length `n` starting at `a`. -/
def reg_window (l : List lua_value) (a n : Nat) : List lua_value :=
  (List.range n).map (fun j => l.getD (a + j) .nil)

theorem move_results_length (n : Nat) :
    ∀ (regs : List lua_value) (dst src : Nat),
      (move_results regs dst src n).length = regs.length := by
  induction n with
  | zero => intro regs dst src; rfl
  | succ n ih =>
    intro regs dst src
    rw [move_results, ih]
    simp

theorem move_results_getD_lt (n : Nat) :
    ∀ (regs : List lua_value) (dst src p : Nat), p < dst →
      (move_results regs dst src n).getD p .nil = regs.getD p .nil := by
  induction n with
  | zero => intro regs dst src p _; rfl
  | succ n ih =>
    intro regs dst src p hp
    rw [move_results, ih _ _ _ _ (by omega), list_getD_set_ne _ _ _ _ _ (by omega)]

theorem move_results_getD_ge (n : Nat) :
    ∀ (regs : List lua_value) (dst src p : Nat), dst + n ≤ p →
      (move_results regs dst src n).getD p .nil = regs.getD p .nil := by
  induction n with
  | zero => intro regs dst src p _; rfl
  | succ n ih =>
    intro regs dst src p hp
    rw [move_results, ih _ _ _ _ (by omega), list_getD_set_ne _ _ _ _ _ (by omega)]

theorem move_results_getD_in (n : Nat) :
    ∀ (regs : List lua_value) (dst src : Nat), dst ≤ src →
      src + n ≤ regs.length →
      ∀ j < n, (move_results regs dst src n).getD (dst + j) .nil
        = regs.getD (src + j) .nil := by
  induction n with
  | zero => intro regs dst src _ _ j hj; omega
  | succ n ih =>
    intro regs dst src hds hlen j hj
    cases j with
    | zero =>
      rw [move_results]
      rw [move_results_getD_lt n _ _ _ _ (by omega)]
      simp only [Nat.add_zero]
      rw [list_getD_set_self _ _ _ _ (by omega)]
    | succ j =>
      rw [move_results]
      have := ih (regs.set dst (regs.getD src .nil)) (dst + 1) (src + 1)
        (by omega) (by simp; omega) j (by omega)
      rw [show dst + (j + 1) = dst + 1 + j by omega, this,
        list_getD_set_ne _ _ _ _ _ (by omega),
        show src + 1 + j = src + (j + 1) by omega]

theorem set_nils_length (n : Nat) :
    ∀ (regs : List lua_value) (a : Nat),
      (set_nils regs a n).length = regs.length := by
  induction n with
  | zero => intro regs a; rfl
  | succ n ih =>
    intro regs a
    rw [set_nils, ih]
    simp

theorem set_nils_getD_lt (n : Nat) :
    ∀ (regs : List lua_value) (a p : Nat), p < a →
      (set_nils regs a n).getD p .nil = regs.getD p .nil := by
  induction n with
  | zero => intro regs a p _; rfl
  | succ n ih =>
    intro regs a p hp
    rw [set_nils, ih _ _ _ (by omega), list_getD_set_ne _ _ _ _ _ (by omega)]

theorem set_nils_getD_in (n : Nat) :
    ∀ (regs : List lua_value) (a : Nat), a + n ≤ regs.length →
      ∀ j < n, (set_nils regs a n).getD (a + j) .nil = .nil := by
  induction n with
  | zero => intro regs a _ j hj; omega
  | succ n ih =>
    intro regs a hlen j hj
    cases j with
    | zero =>
      rw [set_nils]
      rw [set_nils_getD_lt n _ _ _ (by omega)]
      simp only [Nat.add_zero]
      rw [list_getD_set_self _ _ _ _ (by omega)]
    | succ j =>
      rw [set_nils]
      have := ih (regs.set a .nil) (a + 1) (by simp; omega) j (by omega)
      rw [show a + (j + 1) = a + 1 + j by omega, this]

theorem window_take_replicate (N n : Nat) (f : Nat → lua_value) :
    (List.range N).map (fun j => if j < n then f j else .nil)
      = ((List.range n).map f).take N
        ++ List.replicate (N - n) lua_value.nil := by
  rcases Nat.le_total N n with h | h
  · have h2 : N - n = 0 := by omega
    rw [h2, List.replicate_zero, List.append_nil, ← List.map_take,
      List.take_range, Nat.min_eq_left h]
    apply List.map_congr_left
    intro j hj
    rw [List.mem_range] at hj
    rw [if_pos (by omega)]
  · have h2 : N = n + (N - n) := by omega
    rw [← List.map_take, List.take_range, Nat.min_eq_right h]
    conv_lhs => rw [h2]
    rw [List.range_add, List.map_append]
    congr 1
    · apply List.map_congr_left
      intro j hj
      rw [List.mem_range] at hj
      rw [if_pos (by omega)]
    · rw [List.map_map]
      have : ∀ j ∈ List.range (N - n),
          ((fun j => if j < n then f j else lua_value.nil) ∘ (n + ·)) j
            = lua_value.nil := by
        intro j hj
        simp only [Function.comp_apply]
        rw [if_neg (by omega)]
      rw [List.map_congr_left this, List.map_const']
      simp

/-- C3: POSTCALL places exactly the requested values in the caller's window
at the original callee register: with `wanted = N >= 0` the window of length
N holds the produced results truncated to N and nil-padded beyond them, and
the logical top is `func_idx + N`; with `wanted = MULTIRET` the window holds
exactly the produced results and the top is `func_idx + nres`. -/
theorem postcall_window_spec (regs : List lua_value)
    (func_idx first_result nres N : Nat)
    (hle : func_idx ≤ first_result)
    (hres : first_result + nres ≤ regs.length)
    (hcap : func_idx + N ≤ regs.length) :
    (reg_window (postcall regs func_idx first_result nres (N : Int)).1 func_idx N
      = (reg_window regs first_result nres).take N
        ++ List.replicate (N - nres) lua_value.nil)
    ∧ (postcall regs func_idx first_result nres (N : Int)).2 = func_idx + N
    ∧ reg_window (postcall regs func_idx first_result nres MULTIRET).1
        func_idx nres = reg_window regs first_result nres
    ∧ (postcall regs func_idx first_result nres MULTIRET).2
        = func_idx + nres := by
  have hN : ((N : Int)) ≠ MULTIRET := by
    simp only [MULTIRET]
    omega
  have hNtoNat : ((N : Int)).toNat = N := by omega
  refine ⟨?_, ?_, ?_, ?_⟩
  · rw [postcall, if_neg hN]
    simp only [hNtoNat]
    have hwin : reg_window
        (set_nils (move_results regs func_idx first_result (min nres N))
          (func_idx + min nres N) (N - min nres N)) func_idx N
        = (List.range N).map
            (fun j => if j < nres then regs.getD (first_result + j) .nil
              else .nil) := by
      apply List.map_congr_left
      intro j hj
      rw [List.mem_range] at hj
      by_cases hjn : j < min nres N
      · rw [if_pos (by omega)]
        rw [set_nils_getD_lt _ _ _ _ (by omega)]
        exact move_results_getD_in (min nres N) regs func_idx first_result
          hle (by omega) j hjn
      · rw [if_neg (by omega)]
        have := set_nils_getD_in (N - min nres N)
          (move_results regs func_idx first_result (min nres N))
          (func_idx + min nres N)
          (by rw [move_results_length]; omega)
          (j - min nres N) (by omega)
        rw [show func_idx + min nres N + (j - min nres N) = func_idx + j
          by omega] at this
        exact this
    rw [hwin, window_take_replicate N nres
      (fun j => regs.getD (first_result + j) .nil)]
    have hmin : ((List.range nres).map
        (fun j => regs.getD (first_result + j) lua_value.nil)).take N
        = (reg_window regs first_result nres).take N := rfl
    rw [hmin]
  · rw [postcall, if_neg hN]
    simp only [hNtoNat]
  · rw [postcall, if_pos rfl]
    apply List.map_congr_left
    intro j hj
    rw [List.mem_range] at hj
    exact move_results_getD_in nres regs func_idx first_result hle hres j hj
  · rw [postcall, if_pos rfl]

/-- C3 witness: six registers, callee at 0, two produced results 7, 8 at
registers 2, 3.  Requesting 4 results yields 7, 8, nil, nil with top 4;
requesting 1 yields just 7 with top 1; MULTIRET yields 7, 8 with top 2. -/
theorem postcall_window_spec_witness :
    reg_window
      (postcall [.nil, .nil, .int 7, .int 8, .nil, .nil] 0 2 2 ((4 : Nat) : Int)).1 0 4
      = [.int 7, .int 8, .nil, .nil]
    ∧ (postcall [.nil, .nil, .int 7, .int 8, .nil, .nil] 0 2 2 ((4 : Nat) : Int)).2 = 4
    ∧ reg_window
        (postcall [.nil, .nil, .int 7, .int 8, .nil, .nil] 0 2 2 ((1 : Nat) : Int)).1 0 1
        = [.int 7]
    ∧ reg_window
        (postcall [.nil, .nil, .int 7, .int 8, .nil, .nil] 0 2 2 MULTIRET).1 0 2
      = [.int 7, .int 8]
    ∧ (postcall [.nil, .nil, .int 7, .int 8, .nil, .nil] 0 2 2 MULTIRET).2 = 2 := by
  have h4 := postcall_window_spec [.nil, .nil, .int 7, .int 8, .nil, .nil]
    0 2 2 4 (by omega) (by simp) (by simp)
  have h1 := postcall_window_spec [.nil, .nil, .int 7, .int 8, .nil, .nil]
    0 2 2 1 (by omega) (by simp) (by simp)
  refine ⟨?_, h4.2.1, ?_, ?_, h4.2.2.2⟩
  · rw [h4.1]; decide
  · rw [h1.1]; decide
  · rw [h4.2.2.1]; decide

/- ===== Bytecode format and reader (grpl/robotlua/bytecode.h) ===== -/

/-- Embeds `bytecode_architecture` (bytecode.h:28-38): endianness flag and
byte widths of the producing machine's native int, size type, instruction
word, integer constant and float constant. -/
structure bytecode_architecture where
  little : Bool
  sizeof_int : Nat
  sizeof_sizet : Nat
  sizeof_instruction : Nat
  sizeof_lua_integer : Nat
  sizeof_lua_number : Nat
deriving DecidableEq, Repr

/-- The 32-bit little-endian architecture descriptor of the claim. -/
def arch32le : bytecode_architecture := ⟨true, 4, 4, 4, 4, 8⟩

/-- The 64-bit little-endian architecture descriptor of the claim. -/
def arch64le : bytecode_architecture := ⟨true, 4, 8, 8, 8, 8⟩

/-- The 64-bit big-endian architecture descriptor of the claim. -/
def arch64be : bytecode_architecture := ⟨false, 4, 8, 8, 8, 8⟩

/-- Little-endian byte image of `n` in `w` bytes. -/
def le_bytes : Nat → Nat → List Nat
  | 0, _ => []
  | w + 1, n => n % 256 :: le_bytes w (n / 256)

/-- Value of a little-endian byte list. -/
def le_val : List Nat → Nat
  | [] => 0
  | b :: bs => b + 256 * le_val bs

/-- Byte image of `n` in `w` bytes under the given endianness; this is the
encoder a hand-built test chunk uses (modelled from the chunk format of
spec 6). -/
def encode_uint (little : Bool) (w n : Nat) : List Nat :=
  if little then le_bytes w n else (le_bytes w n).reverse

/-- Value a HOST of the given endianness assigns to an in-memory buffer
(the host memcpy target of the primitive readers). -/
def assemble (sys_little : Bool) (bs : List Nat) : Nat :=
  if sys_little then le_val bs else le_val bs.reverse

/-- Value of a buffer under the SOURCE architecture's endianness alone; the
host-independence lemma shows the reader computes exactly this. -/
def decode_src (arch_little : Bool) (bs : List Nat) : Nat :=
  if arch_little then le_val bs else le_val bs.reverse

/-- Embeds the single error kind of the loader: spec 7's FormatError covers
malformed, truncated and architecture-inconsistent bytecode. -/
inductive load_error where
  | format_error : load_error
deriving DecidableEq, Repr

/-- A reader result: the decoded value and the unconsumed remainder of the
stream, or a format error. -/
abbrev RdRes (α : Type) := Except load_error (α × List Nat)

/-- Sequencing of reader steps; an error aborts the whole load (spec 4.1:
partial chunks are never returned). -/
def rbind {α β : Type} : RdRes α → (α → List Nat → RdRes β) → RdRes β
  | .ok (x, l), f => f x l
  | .error e, _ => .error e

/-- Modelled from the spec: `read_byte` (declared bytecode.h:108, body not in
src/): one byte off the stream; a short read is a format error. -/
def read_byte : List Nat → RdRes Nat
  | [] => .error .format_error
  | b :: rest => .ok (b, rest)

/-- Modelled from the spec: `read_block` (declared bytecode.h:109, body not
in src/): `count` raw bytes off the stream. -/
def read_block (count : Nat) (l : List Nat) : RdRes (List Nat) :=
  if count ≤ l.length then .ok (l.take count, l.drop count)
  else .error .format_error

/-- Modelled from the spec: the shared width/endianness core of the primitive
readers (bytecode.h:106-114, bodies not in src/).  Spec 4.1: read the SOURCE
architecture's width, byte-swap when source and host endianness differ, then
interpret in host order.  `sys_little` is the host's endianness
(bytecode.h:117 `_sys_arch`). -/
def read_uint (sys_little arch_little : Bool) (w : Nat) (l : List Nat) :
    RdRes Nat :=
  rbind (read_block w l) fun bs rest =>
    .ok (assemble sys_little (if arch_little == sys_little then bs else bs.reverse),
      rest)

/-- Reader for `int` fields, at the source architecture's native int width
(bytecode.h:106). -/
def read_native_int (sys_little : Bool) (a : bytecode_architecture) :
    List Nat → RdRes Nat :=
  read_uint sys_little a.little a.sizeof_int

/-- Reader for `size_t` fields (bytecode.h:107). -/
def read_sizet (sys_little : Bool) (a : bytecode_architecture) :
    List Nat → RdRes Nat :=
  read_uint sys_little a.little a.sizeof_sizet

/-- Reader for instruction words (bytecode.h:112). -/
def read_lua_instruction (sys_little : Bool) (a : bytecode_architecture) :
    List Nat → RdRes Nat :=
  read_uint sys_little a.little a.sizeof_instruction

/-- Reader for integer-constant words, as their bit pattern
(bytecode.h:113). -/
def read_lua_integer (sys_little : Bool) (a : bytecode_architecture) :
    List Nat → RdRes Nat :=
  read_uint sys_little a.little a.sizeof_lua_integer

/-- Reader for float-constant words, as their bit pattern (bytecode.h:114);
"bit-identical" decoding is exactly preservation of this pattern. -/
def read_lua_number (sys_little : Bool) (a : bytecode_architecture) :
    List Nat → RdRes Nat :=
  read_uint sys_little a.little a.sizeof_lua_number

/-- Modelled from the spec: `read_lua_string` (declared bytecode.h:111, body
not in src/): a size_t length prefix followed by that many characters
(spec 6: length-prefixed string). -/
def read_lua_string (sys_little : Bool) (a : bytecode_architecture)
    (l : List Nat) : RdRes (List Nat) :=
  rbind (read_sizet sys_little a l) fun n l1 => read_block n l1

/-- Length-prefixed string image (spec 6). -/
def encode_string (a : bytecode_architecture) (s : List Nat) : List Nat :=
  encode_uint a.little a.sizeof_sizet s.length ++ s

/-- Embeds `bytecode_constant` (bytecode.h:54-62): a tagged constant of the
constant pool.  Numeric constants carry their raw bit patterns. -/
inductive bytecode_constant where
  | const_nil : bytecode_constant
  | const_bool : Bool → bytecode_constant
  | const_number : Nat → bytecode_constant
  | const_integer : Nat → bytecode_constant
  | const_string : List Nat → bytecode_constant
deriving DecidableEq, Repr

/-- Embeds `bytecode_upvalue` (bytecode.h:64-67): location kind and index. -/
structure bytecode_upvalue where
  loc : Nat
  idx : Nat
deriving DecidableEq, Repr

/-- Embeds `bytecode_function` (bytecode.h:69-91): one prototype of the
owned, acyclic prototype tree.  The explicit `num_*` count fields of the C++
struct are the lengths of the arrays (hand-built trees keep them consistent;
the encoder emits lengths, the reader rebuilds both). -/
inductive bytecode_function where
  | mk :
    (source : List Nat) →
    (line_defined : Nat) →
    (last_line_defined : Nat) →
    (num_params : Nat) →
    (is_var_arg : Nat) →
    (max_stack_size : Nat) →
    (instructions : List Nat) →
    (constants : List bytecode_constant) →
    (upvalues : List bytecode_upvalue) →
    (protos : List bytecode_function) →
    bytecode_function

/-- Constant-pool tags of the chunk format: nil 0, bool 1, float 3,
integer 3|(1<<4), string 4 (spec 6: tag byte then payload); the reader masks
the variant bits away with `trunc_tag_type` (types.h:42-44). -/
def encode_constant (a : bytecode_architecture) : bytecode_constant → List Nat
  | .const_nil => [0]
  | .const_bool b => [1, if b then 1 else 0]
  | .const_number p => 3 :: encode_uint a.little a.sizeof_lua_number p
  | .const_integer p => 19 :: encode_uint a.little a.sizeof_lua_integer p
  | .const_string s => 4 :: encode_string a s

/-- Upvalue-descriptor image: location kind then index (spec 6). -/
def encode_upvalue (u : bytecode_upvalue) : List Nat := [u.loc, u.idx]

/-- Modelled from the spec: reader for one tagged constant (inside
`read_function`, bytecode.h:104, body not in src/); an unknown tag is a
format error. -/
def read_constant (sys_little : Bool) (a : bytecode_architecture)
    (l : List Nat) : RdRes bytecode_constant :=
  rbind (read_byte l) fun tag l1 =>
    if tag = 0 then .ok (.const_nil, l1)
    else if tag = 1 then
      rbind (read_byte l1) fun b l2 => .ok (.const_bool (b != 0), l2)
    else if tag = 3 then
      rbind (read_lua_number sys_little a l1) fun p l2 =>
        .ok (.const_number p, l2)
    else if tag = 19 then
      rbind (read_lua_integer sys_little a l1) fun p l2 =>
        .ok (.const_integer p, l2)
    else if tag = 4 then
      rbind (read_lua_string sys_little a l1) fun s l2 =>
        .ok (.const_string s, l2)
    else .error .format_error

/-- Reader for one upvalue descriptor: location kind then index. -/
def read_upvalue_desc (l : List Nat) : RdRes bytecode_upvalue :=
  rbind (read_byte l) fun loc l1 =>
  rbind (read_byte l1) fun idx l2 => .ok (⟨loc, idx⟩, l2)

/-- Reader for a counted sequence of items. -/
def read_list {α : Type} (rd : List Nat → RdRes α) :
    Nat → List Nat → RdRes (List α)
  | 0, l => .ok ([], l)
  | n + 1, l =>
    rbind (rd l) fun x l1 =>
    rbind (read_list rd n l1) fun xs l2 => .ok (x :: xs, l2)

/-- Reader for one local-variable debug record: name string and two ints. -/
def read_locvar (sys_little : Bool) (a : bytecode_architecture)
    (l : List Nat) : RdRes Unit :=
  rbind (read_lua_string sys_little a l) fun _ l1 =>
  rbind (read_native_int sys_little a l1) fun _ l2 =>
  rbind (read_native_int sys_little a l2) fun _ l3 => .ok ((), l3)

/-- Modelled from the spec: the debug tables at the tail of each prototype
(spec 4.1/6: present in the stream, fully consumed, never interpreted):
counted line info, counted local-variable records, counted upvalue names. -/
def read_debug (sys_little : Bool) (a : bytecode_architecture)
    (l : List Nat) : RdRes Unit :=
  rbind (read_native_int sys_little a l) fun nline l1 =>
  rbind (read_list (read_native_int sys_little a) nline l1) fun _ l2 =>
  rbind (read_native_int sys_little a l2) fun nloc l3 =>
  rbind (read_list (read_locvar sys_little a) nloc l3) fun _ l4 =>
  rbind (read_native_int sys_little a l4) fun nupn l5 =>
  rbind (read_list (read_lua_string sys_little a) nupn l5) fun _ l6 =>
  .ok ((), l6)

/-- Empty debug tables, as a hand-built encoder emits them (three zero
counts). -/
def encode_debug (a : bytecode_architecture) : List Nat :=
  encode_uint a.little a.sizeof_int 0 ++ encode_uint a.little a.sizeof_int 0
    ++ encode_uint a.little a.sizeof_int 0

mutual

/-- Encoder for one prototype, per the chunk format of spec 6: source-name
string, two line numbers, three scalar bytes, counted instruction array,
counted tagged constant array, counted upvalue-descriptor array, counted
nested prototypes, then (empty) debug tables. -/
def encode_function (a : bytecode_architecture) : bytecode_function → List Nat
  | .mk src ld lld np va mss ins cs uvs ps =>
    encode_string a src
    ++ encode_uint a.little a.sizeof_int ld
    ++ encode_uint a.little a.sizeof_int lld
    ++ [np, va, mss]
    ++ encode_uint a.little a.sizeof_int ins.length
    ++ (ins.map (encode_uint a.little a.sizeof_instruction)).flatten
    ++ encode_uint a.little a.sizeof_int cs.length
    ++ (cs.map (encode_constant a)).flatten
    ++ encode_uint a.little a.sizeof_int uvs.length
    ++ (uvs.map encode_upvalue).flatten
    ++ encode_uint a.little a.sizeof_int ps.length
    ++ encode_function_list a ps
    ++ encode_debug a

/-- Concatenated images of a prototype list, in order. -/
def encode_function_list (a : bytecode_architecture) :
    List bytecode_function → List Nat
  | [] => []
  | f :: fs => encode_function a f ++ encode_function_list a fs

end

mutual

/-- Nesting depth of a prototype tree; it bounds the reader fuel a decode
needs. -/
def fdepth : bytecode_function → Nat
  | .mk _ _ _ _ _ _ _ _ _ ps => fdepth_list ps + 1

/-- Largest nesting depth in a prototype list. -/
def fdepth_list : List bytecode_function → Nat
  | [] => 0
  | f :: fs => max (fdepth f) (fdepth_list fs)

end

/-- Ranges a constant must respect so its fields fit the widths of
architecture `a` (what a hand-built chunk for `a` satisfies by
construction). -/
def wf_constant (a : bytecode_architecture) : bytecode_constant → Bool
  | .const_nil => true
  | .const_bool _ => true
  | .const_number p => decide (p < 256 ^ a.sizeof_lua_number)
  | .const_integer p => decide (p < 256 ^ a.sizeof_lua_integer)
  | .const_string s =>
    s.all (· < 256) && decide (s.length < 256 ^ a.sizeof_sizet)

mutual

/-- Ranges a prototype tree must respect so that every field fits the widths
of architecture `a`: bytes are bytes, counts fit the native int, values fit
their declared words, recursively. -/
def wf_function (a : bytecode_architecture) : bytecode_function → Bool
  | .mk src ld lld np va mss ins cs uvs ps =>
    src.all (· < 256) && decide (src.length < 256 ^ a.sizeof_sizet)
    && decide (ld < 256 ^ a.sizeof_int) && decide (lld < 256 ^ a.sizeof_int)
    && decide (np < 256) && decide (va < 256) && decide (mss < 256)
    && decide (ins.length < 256 ^ a.sizeof_int)
    && ins.all (fun i => decide (i < 256 ^ a.sizeof_instruction))
    && decide (cs.length < 256 ^ a.sizeof_int)
    && cs.all (wf_constant a)
    && decide (uvs.length < 256 ^ a.sizeof_int)
    && uvs.all (fun u => decide (u.loc < 256) && decide (u.idx < 256))
    && decide (ps.length < 256 ^ a.sizeof_int)
    && wf_function_list a ps

/-- Well-formedness of every prototype in a list. -/
def wf_function_list (a : bytecode_architecture) :
    List bytecode_function → Bool
  | [] => true
  | f :: fs => wf_function a f && wf_function_list a fs

end

/-- Modelled from the spec: `read_function` (declared bytecode.h:104, body
not in src/).  Spec 4.1: recursively decode one prototype — scalar fields,
the instruction array, the tagged constant array, the upvalue-descriptor
array, the nested prototypes, then consume the debug tables.  Fuel bounds the
nesting depth; running out is a format error. -/
def read_function (sys_little : Bool) (a : bytecode_architecture) :
    Nat → List Nat → RdRes bytecode_function
  | 0, _ => .error .format_error
  | fuel + 1, l =>
    rbind (read_lua_string sys_little a l) fun src l =>
    rbind (read_native_int sys_little a l) fun ld l =>
    rbind (read_native_int sys_little a l) fun lld l =>
    rbind (read_byte l) fun np l =>
    rbind (read_byte l) fun va l =>
    rbind (read_byte l) fun mss l =>
    rbind (read_native_int sys_little a l) fun nins l =>
    rbind (read_list (read_lua_instruction sys_little a) nins l) fun ins l =>
    rbind (read_native_int sys_little a l) fun ncs l =>
    rbind (read_list (read_constant sys_little a) ncs l) fun cs l =>
    rbind (read_native_int sys_little a l) fun nuv l =>
    rbind (read_list read_upvalue_desc nuv l) fun uvs l =>
    rbind (read_native_int sys_little a l) fun nps l =>
    rbind (read_list (read_function sys_little a fuel) nps l) fun ps l =>
    rbind (read_debug sys_little a l) fun _ l =>
    .ok (.mk src ld lld np va mss ins cs uvs ps, l)

/- ===== Roundtrip lemmas for the primitive readers ===== -/

theorem le_bytes_length (w : Nat) : ∀ n : Nat, (le_bytes w n).length = w := by
  induction w with
  | zero => intro n; rfl
  | succ w ih => intro n; simp [le_bytes, ih]

theorem le_val_le_bytes (w : Nat) : ∀ n : Nat, n < 256 ^ w →
    le_val (le_bytes w n) = n := by
  induction w with
  | zero =>
    intro n h
    simp [pow_zero] at h
    simp [h, le_bytes, le_val]
  | succ w ih =>
    intro n h
    have hdiv : n / 256 < 256 ^ w := by
      apply Nat.div_lt_of_lt_mul
      rw [pow_succ] at h
      omega
    rw [le_bytes, le_val, ih (n / 256) hdiv, Nat.mod_add_div]

theorem le_bytes_lt_256 (w : Nat) : ∀ n : Nat, ∀ b ∈ le_bytes w n, b < 256 := by
  induction w with
  | zero => intro n b hb; simp [le_bytes] at hb
  | succ w ih =>
    intro n b hb
    rw [le_bytes] at hb
    rcases List.mem_cons.mp hb with rfl | hb2
    · exact Nat.mod_lt _ (by norm_num)
    · exact ih (n / 256) b hb2

theorem le_bytes_le_val : ∀ (bs : List Nat) (w : Nat), bs.length = w →
    (∀ b ∈ bs, b < 256) → le_bytes w (le_val bs) = bs := by
  intro bs
  induction bs with
  | nil =>
    intro w h _
    subst h
    rfl
  | cons b tl ih =>
    intro w h hb
    subst h
    have hblt : b < 256 := hb b (by simp)
    rw [List.length_cons, le_bytes, le_val]
    congr 1
    · rw [Nat.add_mul_mod_self_left, Nat.mod_eq_of_lt hblt]
    · rw [Nat.add_mul_div_left _ _ (by norm_num : 0 < 256),
        Nat.div_eq_of_lt hblt, Nat.zero_add]
      exact ih tl.length rfl (fun x hx => hb x (by simp [hx]))

theorem encode_uint_length (little : Bool) (w n : Nat) :
    (encode_uint little w n).length = w := by
  cases little <;> simp [encode_uint, le_bytes_length]

theorem decode_src_encode_uint (al : Bool) (w n : Nat) (h : n < 256 ^ w) :
    decode_src al (encode_uint al w n) = n := by
  cases al <;> simp [decode_src, encode_uint, le_val_le_bytes w n h]

theorem assemble_swap (sys al : Bool) (bs : List Nat) :
    assemble sys (if al == sys then bs else bs.reverse) = decode_src al bs := by
  cases sys <;> cases al <;> simp [assemble, decode_src]

theorem encode_decode_bytes (al : Bool) (bs : List Nat) (w : Nat)
    (hlen : bs.length = w) (hb : ∀ b ∈ bs, b < 256) :
    encode_uint al w (decode_src al bs) = bs := by
  cases al
  · simp only [encode_uint, decode_src, if_neg, Bool.false_eq_true,
      if_false]
    have : le_bytes w (le_val bs.reverse) = bs.reverse :=
      le_bytes_le_val bs.reverse w (by simpa using hlen)
        (fun b hbm => hb b (List.mem_reverse.mp hbm))
    rw [this, List.reverse_reverse]
  · simp only [encode_uint, decode_src, if_pos]
    exact le_bytes_le_val bs w hlen hb

theorem read_block_exact (bs rest : List Nat) :
    read_block bs.length (bs ++ rest) = .ok (bs, rest) := by
  rw [read_block, if_pos (by simp)]
  rw [List.take_left, List.drop_left]

theorem read_block_exact_w (bs rest : List Nat) (w : Nat)
    (hlen : bs.length = w) : read_block w (bs ++ rest) = .ok (bs, rest) := by
  subst hlen
  exact read_block_exact bs rest

theorem read_uint_exact (sys al : Bool) (w : Nat) (bs rest : List Nat)
    (hlen : bs.length = w) :
    read_uint sys al w (bs ++ rest) = .ok (decode_src al bs, rest) := by
  unfold read_uint
  rw [read_block_exact_w bs rest w hlen]
  simp only [rbind]
  rw [assemble_swap]

theorem read_uint_rt (sys al : Bool) (w n : Nat) (rest : List Nat)
    (h : n < 256 ^ w) :
    read_uint sys al w (encode_uint al w n ++ rest) = .ok (n, rest) := by
  rw [read_uint_exact sys al w _ rest (encode_uint_length al w n),
    decode_src_encode_uint al w n h]

theorem read_native_int_rt (sys : Bool) (a : bytecode_architecture)
    (n : Nat) (rest : List Nat) (h : n < 256 ^ a.sizeof_int) :
    read_native_int sys a (encode_uint a.little a.sizeof_int n ++ rest)
      = .ok (n, rest) :=
  read_uint_rt sys a.little a.sizeof_int n rest h

theorem read_sizet_rt (sys : Bool) (a : bytecode_architecture)
    (n : Nat) (rest : List Nat) (h : n < 256 ^ a.sizeof_sizet) :
    read_sizet sys a (encode_uint a.little a.sizeof_sizet n ++ rest)
      = .ok (n, rest) :=
  read_uint_rt sys a.little a.sizeof_sizet n rest h

theorem read_lua_instruction_rt (sys : Bool) (a : bytecode_architecture)
    (n : Nat) (rest : List Nat) (h : n < 256 ^ a.sizeof_instruction) :
    read_lua_instruction sys a
        (encode_uint a.little a.sizeof_instruction n ++ rest)
      = .ok (n, rest) :=
  read_uint_rt sys a.little a.sizeof_instruction n rest h

theorem read_lua_integer_rt (sys : Bool) (a : bytecode_architecture)
    (n : Nat) (rest : List Nat) (h : n < 256 ^ a.sizeof_lua_integer) :
    read_lua_integer sys a
        (encode_uint a.little a.sizeof_lua_integer n ++ rest)
      = .ok (n, rest) :=
  read_uint_rt sys a.little a.sizeof_lua_integer n rest h

theorem read_lua_number_rt (sys : Bool) (a : bytecode_architecture)
    (n : Nat) (rest : List Nat) (h : n < 256 ^ a.sizeof_lua_number) :
    read_lua_number sys a
        (encode_uint a.little a.sizeof_lua_number n ++ rest)
      = .ok (n, rest) :=
  read_uint_rt sys a.little a.sizeof_lua_number n rest h

theorem read_lua_string_rt (sys : Bool) (a : bytecode_architecture)
    (s rest : List Nat) (h : s.length < 256 ^ a.sizeof_sizet) :
    read_lua_string sys a (encode_string a s ++ rest) = .ok (s, rest) := by
  unfold read_lua_string encode_string
  rw [List.append_assoc, read_sizet_rt sys a s.length _ h]
  simp only [rbind]
  exact read_block_exact s rest

theorem read_upvalue_desc_rt (u : bytecode_upvalue) (rest : List Nat) :
    read_upvalue_desc (encode_upvalue u ++ rest) = .ok (u, rest) := by
  obtain ⟨loc, idx⟩ := u
  simp [read_upvalue_desc, encode_upvalue, read_byte, rbind]

theorem read_constant_rt (sys : Bool) (a : bytecode_architecture)
    (c : bytecode_constant) (rest : List Nat)
    (h : wf_constant a c = true) :
    read_constant sys a (encode_constant a c ++ rest) = .ok (c, rest) := by
  cases c with
  | const_nil =>
    simp [encode_constant, read_constant, read_byte, rbind]
  | const_bool b =>
    cases b <;>
      simp [encode_constant, read_constant, read_byte, rbind]
  | const_number p =>
    have hp : p < 256 ^ a.sizeof_lua_number := by
      simpa [wf_constant] using h
    simp only [encode_constant, List.cons_append]
    rw [read_constant]
    simp only [read_byte, rbind]
    norm_num
    rw [read_lua_number_rt sys a p rest hp]
  | const_integer p =>
    have hp : p < 256 ^ a.sizeof_lua_integer := by
      simpa [wf_constant] using h
    simp only [encode_constant, List.cons_append]
    rw [read_constant]
    simp only [read_byte, rbind]
    norm_num
    rw [read_lua_integer_rt sys a p rest hp]
  | const_string s =>
    have hs : s.length < 256 ^ a.sizeof_sizet := by
      simp [wf_constant, Bool.and_eq_true] at h
      exact h.2
    simp only [encode_constant, List.cons_append]
    rw [read_constant]
    simp only [read_byte, rbind]
    norm_num
    rw [read_lua_string_rt sys a s rest hs]

theorem read_list_roundtrip {α : Type} (rd : List Nat → RdRes α)
    (enc : α → List Nat) :
    ∀ (xs : List α) (rest : List Nat),
      (∀ x ∈ xs, ∀ r, rd (enc x ++ r) = .ok (x, r)) →
      read_list rd xs.length ((xs.map enc).flatten ++ rest) = .ok (xs, rest) := by
  intro xs
  induction xs with
  | nil =>
    intro rest _
    simp [read_list]
  | cons x tl ih =>
    intro rest h
    rw [List.length_cons, read_list, List.map_cons, List.flatten_cons,
      List.append_assoc, h x (by simp)]
    simp only [rbind]
    rw [ih rest (fun y hy r => h y (by simp [hy]) r)]

theorem read_debug_rt (sys : Bool) (a : bytecode_architecture)
    (rest : List Nat) :
    read_debug sys a (encode_debug a ++ rest) = .ok ((), rest) := by
  have h0 : (0 : Nat) < 256 ^ a.sizeof_int := pow_pos (by norm_num) _
  unfold read_debug encode_debug
  simp only [List.append_assoc]
  rw [read_native_int_rt sys a 0 _ h0]
  simp only [rbind, read_list]
  rw [read_native_int_rt sys a 0 _ h0]
  simp only [rbind, read_list]
  rw [read_native_int_rt sys a 0 _ h0]
  simp only [rbind, read_list]

theorem fdepth_pos (f : bytecode_function) : 0 < fdepth f := by
  rcases f with ⟨src, ld, lld, np, va, mss, ins, cs, uvs, ps⟩
  rw [fdepth]
  omega

theorem fdepth_le_of_mem : ∀ (ps : List bytecode_function)
    (g : bytecode_function), g ∈ ps → fdepth g ≤ fdepth_list ps := by
  intro ps
  induction ps with
  | nil => intro g hg; simp at hg
  | cons f fs ih =>
    intro g hg
    rcases List.mem_cons.mp hg with rfl | hg2
    · rw [fdepth_list]; exact le_max_left _ _
    · rw [fdepth_list]; exact le_trans (ih g hg2) (le_max_right _ _)

theorem wf_function_list_mem (a : bytecode_architecture) :
    ∀ (ps : List bytecode_function), wf_function_list a ps = true →
      ∀ g ∈ ps, wf_function a g = true := by
  intro ps
  induction ps with
  | nil => intro _ g hg; simp at hg
  | cons f fs ih =>
    intro h g hg
    rw [wf_function_list, Bool.and_eq_true] at h
    rcases List.mem_cons.mp hg with rfl | hg2
    · exact h.1
    · exact ih h.2 g hg2

theorem encode_function_list_eq (a : bytecode_architecture) :
    ∀ ps : List bytecode_function,
      encode_function_list a ps = (ps.map (encode_function a)).flatten := by
  intro ps
  induction ps with
  | nil => rfl
  | cons f fs ih => rw [encode_function_list, ih]; simp

/-- Decode is a left inverse of encode: for every well-formed prototype tree
and enough fuel, the reader rebuilds the exact tree on any host endianness
and leaves the remainder of the stream untouched. -/
theorem read_function_roundtrip (sys : Bool) (a : bytecode_architecture) :
    ∀ (fuel : Nat) (f : bytecode_function) (rest : List Nat),
      fdepth f ≤ fuel → wf_function a f = true →
      read_function sys a fuel (encode_function a f ++ rest) = .ok (f, rest) := by
  intro fuel
  induction fuel with
  | zero =>
    intro f rest hd _
    have := fdepth_pos f
    omega
  | succ fuel ih =>
    rintro ⟨src, ld, lld, np, va, mss, ins, cs, uvs, ps⟩ rest hd hwf
    rw [fdepth] at hd
    simp only [wf_function, Bool.and_eq_true, List.all_eq_true,
      decide_eq_true_eq] at hwf
    obtain ⟨⟨⟨⟨⟨⟨⟨⟨⟨⟨⟨⟨⟨⟨hsrc, hsrcl⟩, hld⟩, hlld⟩, hnp⟩, hva⟩, hmss⟩,
      hinsl⟩, hins⟩, hcsl⟩, hcs⟩, huvl⟩, huv⟩, hpsl⟩, hps⟩ := hwf
    have hchild : ∀ g ∈ ps, ∀ r : List Nat,
        read_function sys a fuel (encode_function a g ++ r) = .ok (g, r) := by
      intro g hg r
      exact ih g r (le_trans (fdepth_le_of_mem ps g hg) (by omega))
        (wf_function_list_mem a ps hps g hg)
    simp only [encode_function, encode_function_list_eq, List.append_assoc,
      List.cons_append, List.nil_append]
    rw [read_function]
    rw [read_lua_string_rt sys a src _ hsrcl]
    simp only [rbind]
    rw [read_native_int_rt sys a ld _ hld]
    simp only [rbind]
    rw [read_native_int_rt sys a lld _ hlld]
    simp only [rbind]
    simp only [read_byte, rbind]
    rw [read_native_int_rt sys a ins.length _ hinsl]
    simp only [rbind]
    rw [read_list_roundtrip (read_lua_instruction sys a)
      (encode_uint a.little a.sizeof_instruction) ins _
      (fun i hi r => read_lua_instruction_rt sys a i r (hins i hi))]
    simp only [rbind]
    rw [read_native_int_rt sys a cs.length _ hcsl]
    simp only [rbind]
    rw [read_list_roundtrip (read_constant sys a) (encode_constant a) cs _
      (fun c hc r => read_constant_rt sys a c r (hcs c hc))]
    simp only [rbind]
    rw [read_native_int_rt sys a uvs.length _ huvl]
    simp only [rbind]
    rw [read_list_roundtrip read_upvalue_desc encode_upvalue uvs _
      (fun u _ r => read_upvalue_desc_rt u r)]
    simp only [rbind]
    rw [read_native_int_rt sys a ps.length _ hpsl]
    simp only [rbind]
    rw [read_list_roundtrip (read_function sys a fuel) (encode_function a)
      ps _ hchild]
    simp only [rbind]
    rw [read_debug_rt sys a rest]

/-- C1: for every hand-built well-formed prototype tree encoded under any of
the architecture descriptors 32-bit little-endian, 64-bit little-endian or
64-bit big-endian, decoding with the bytecode reader on a host of EITHER
endianness returns a tree equal to the original — instructions, constants,
upvalue descriptors and nested prototypes bit-identical — with the remainder
of the stream untouched; decode is a left inverse of encode on every listed
architecture, regardless of the host. -/
theorem bytecode_decode_encode_roundtrip (a : bytecode_architecture)
    (h3 : a = arch32le ∨ a = arch64le ∨ a = arch64be)
    (sys_little : Bool) (f : bytecode_function) (rest : List Nat) (fuel : Nat)
    (hfuel : fdepth f ≤ fuel) (hwf : wf_function a f = true) :
    read_function sys_little a fuel (encode_function a f ++ rest)
      = .ok (f, rest) := by
  rcases h3 with rfl | rfl | rfl <;>
    exact read_function_roundtrip sys_little _ fuel f rest hfuel hwf

/-- Hand-built sample tree: a root with a source name, two instructions, one
constant of every tag, one upvalue descriptor and one nested prototype. -/
def sample_proto : bytecode_function :=
  .mk [65] 1 2 0 0 2 [7, 8]
    [.const_nil, .const_bool true, .const_number 1071211520,
      .const_integer 4, .const_string [66, 67]]
    [⟨1, 0⟩]
    [.mk [] 3 4 1 0 1 [9] [] [] []]

/-- C1 witness: the sample tree, encoded for the 64-bit big-endian
architecture and decoded on a little-endian host with fuel 2, comes back
exactly. -/
theorem bytecode_decode_encode_roundtrip_witness :
    fdepth sample_proto ≤ 2
    ∧ wf_function arch64be sample_proto = true
    ∧ read_function true arch64be 2
        (encode_function arch64be sample_proto ++ [5])
      = .ok (sample_proto, [5]) :=
  ⟨by decide, by decide,
    bytecode_decode_encode_roundtrip arch64be (Or.inr (Or.inr rfl)) true
      sample_proto [5] 2 (by decide) (by decide)⟩

/- ===== Chunk header and sentinel checks (bytecode.h:40-50, 103) ===== -/

/-- Chunk signature "\x1bLua" (spec 6: signature(4)). -/
def LUA_SIGNATURE : List Nat := [27, 76, 117, 97]

/-- Accepted version byte (Lua 5.3). -/
def LUAC_VERSION : Nat := 83

/-- Accepted format byte. -/
def LUAC_FORMAT : Nat := 0

/-- The six reserved self-check bytes after version and format (spec 6:
reserved(6)). -/
def LUAC_DATA : List Nat := [25, 147, 13, 10, 26, 10]

/-- Expected integer sentinel value 0x5678 (bytecode_header.linteger,
bytecode.h:48). -/
def LUAC_INT : Nat := 22136

/-- Expected float sentinel as the 8-byte IEEE-754 pattern of 370.5
(bytecode_header.lnumber, bytecode.h:49). -/
def LUAC_NUM_PATTERN : Nat := 4645225521121067008

/-- Architecture-descriptor bytes of the header: endianness flag then the
five widths (spec 6). -/
def arch_bytes (a : bytecode_architecture) : List Nat :=
  [if a.little then 1 else 0, a.sizeof_int, a.sizeof_sizet,
    a.sizeof_instruction, a.sizeof_lua_integer, a.sizeof_lua_number]

/-- Reader for the architecture descriptor. -/
def read_arch (l : List Nat) : RdRes bytecode_architecture :=
  rbind (read_byte l) fun b0 l =>
  rbind (read_byte l) fun b1 l =>
  rbind (read_byte l) fun b2 l =>
  rbind (read_byte l) fun b3 l =>
  rbind (read_byte l) fun b4 l =>
  rbind (read_byte l) fun b5 l =>
  .ok (⟨b0 != 0, b1, b2, b3, b4, b5⟩, l)

/-- Reader insisting on an exact byte sequence; any deviation is a format
error. -/
def read_exact (expected : List Nat) (l : List Nat) : RdRes Unit :=
  rbind (read_block expected.length l) fun bs l1 =>
    if bs = expected then .ok ((), l1) else .error .format_error

/-- Modelled from the spec: `read_header` (declared bytecode.h:103, body not
in src/).  Spec 4.1/6: validate signature, version and format, decode the
architecture descriptor, then read the integer and float sentinels WITH that
architecture's widths and endianness and cross-check them against the
expected constants; any mismatch is a format error and nothing downstream is
attempted. -/
def read_header (sys_little : Bool) (l : List Nat) :
    RdRes bytecode_architecture :=
  rbind (read_exact LUA_SIGNATURE l) fun _ l =>
  rbind (read_byte l) fun ver l =>
  if ver = LUAC_VERSION then
    rbind (read_byte l) fun fmt l =>
    if fmt = LUAC_FORMAT then
      rbind (read_exact LUAC_DATA l) fun _ l =>
      rbind (read_arch l) fun arch l =>
      rbind (read_lua_integer sys_little arch l) fun isent l =>
      if isent = LUAC_INT then
        rbind (read_lua_number sys_little arch l) fun fsent l =>
        if fsent = LUAC_NUM_PATTERN then .ok (arch, l)
        else .error .format_error
      else .error .format_error
    else .error .format_error
  else .error .format_error

/-- Whole-chunk reader (bytecode_chunk, bytecode.h:93-97): header, root
upvalue count, root function; an error anywhere yields no chunk at all. -/
def read_chunk (sys_little : Bool) (l : List Nat) :
    RdRes (bytecode_architecture × Nat × bytecode_function) :=
  rbind (read_header sys_little l) fun arch l1 =>
  rbind (read_byte l1) fun nup l2 =>
  rbind (read_function sys_little arch (l2.length + 1) l2) fun f l3 =>
  .ok ((arch, nup, f), l3)

/-- Header bytes up to (excluding) the sentinels, for a declared
architecture. -/
def header_head_bytes (a : bytecode_architecture) : List Nat :=
  LUA_SIGNATURE ++ [LUAC_VERSION, LUAC_FORMAT] ++ LUAC_DATA ++ arch_bytes a

theorem read_exact_rt (e rest : List Nat) :
    read_exact e (e ++ rest) = .ok ((), rest) := by
  unfold read_exact
  rw [read_block_exact e rest]
  simp [rbind]

theorem read_arch_rt (a : bytecode_architecture) (rest : List Nat) :
    read_arch (arch_bytes a ++ rest) = .ok (a, rest) := by
  obtain ⟨al, s1, s2, s3, s4, s5⟩ := a
  cases al <;>
    simp [read_arch, arch_bytes, read_byte, rbind]

theorem decode_src_ne (al : Bool) (w : Nat) (bs : List Nat) (n : Nat)
    (hlen : bs.length = w) (hb : ∀ b ∈ bs, b < 256)
    (hne : bs ≠ encode_uint al w n) : decode_src al bs ≠ n := by
  intro hdec
  apply hne
  rw [← encode_decode_bytes al bs w hlen hb, hdec]

theorem read_lua_integer_exact (sys : Bool) (a : bytecode_architecture)
    (bs rest : List Nat) (hlen : bs.length = a.sizeof_lua_integer) :
    read_lua_integer sys a (bs ++ rest)
      = .ok (decode_src a.little bs, rest) :=
  read_uint_exact sys a.little a.sizeof_lua_integer bs rest hlen

theorem read_lua_number_exact (sys : Bool) (a : bytecode_architecture)
    (bs rest : List Nat) (hlen : bs.length = a.sizeof_lua_number) :
    read_lua_number sys a (bs ++ rest)
      = .ok (decode_src a.little bs, rest) :=
  read_uint_exact sys a.little a.sizeof_lua_number bs rest hlen

/-- C4: a chunk whose integer or float sentinel bytes are not the encoding
its own declared architecture predicts is rejected by `read_header` with a
FormatError before any function body is read: `read_chunk` returns the
format error outright, so nothing downstream of the header is decoded and no
partial chunk is ever returned. -/
theorem header_sentinel_mismatch_rejected :
    (∀ (sys_little : Bool) (a : bytecode_architecture) (ibytes rest : List Nat),
      ibytes.length = a.sizeof_lua_integer →
      (∀ b ∈ ibytes, b < 256) →
      ibytes ≠ encode_uint a.little a.sizeof_lua_integer LUAC_INT →
      read_chunk sys_little (header_head_bytes a ++ ibytes ++ rest)
        = .error .format_error)
    ∧ (∀ (sys_little : Bool) (a : bytecode_architecture) (fbytes rest : List Nat),
      LUAC_INT < 256 ^ a.sizeof_lua_integer →
      fbytes.length = a.sizeof_lua_number →
      (∀ b ∈ fbytes, b < 256) →
      fbytes ≠ encode_uint a.little a.sizeof_lua_number LUAC_NUM_PATTERN →
      read_chunk sys_little
        (header_head_bytes a
          ++ encode_uint a.little a.sizeof_lua_integer LUAC_INT
          ++ fbytes ++ rest)
        = .error .format_error) := by
  constructor
  · intro sys a ibytes rest hlen hb hne
    unfold read_chunk read_header header_head_bytes
    simp only [List.append_assoc, List.cons_append, List.nil_append]
    rw [read_exact_rt LUA_SIGNATURE _]
    simp only [rbind, read_byte, if_true]
    rw [read_exact_rt LUAC_DATA _]
    simp only [rbind]
    rw [read_arch_rt a _]
    simp only [rbind]
    rw [read_lua_integer_exact sys a ibytes rest hlen]
    simp only [rbind]
    rw [if_neg (decode_src_ne a.little a.sizeof_lua_integer ibytes LUAC_INT
      hlen hb hne)]
  · intro sys a fbytes rest hfit hlen hb hne
    unfold read_chunk read_header header_head_bytes
    simp only [List.append_assoc, List.cons_append, List.nil_append]
    rw [read_exact_rt LUA_SIGNATURE _]
    simp only [rbind, read_byte, if_true]
    rw [read_exact_rt LUAC_DATA _]
    simp only [rbind]
    rw [read_arch_rt a _]
    simp only [rbind]
    rw [read_lua_integer_rt sys a LUAC_INT _ hfit]
    simp only [rbind, if_true]
    rw [read_lua_number_exact sys a fbytes rest hlen]
    simp only [rbind]
    rw [if_neg (decode_src_ne a.little a.sizeof_lua_number fbytes
      LUAC_NUM_PATTERN hlen hb hne)]

/-- C4 witness: under the 32-bit little-endian descriptor, an integer
sentinel of four zero bytes (not the encoding of 0x5678) is rejected, and
with a correct integer sentinel a wrong 8-byte float sentinel is rejected;
both leave no partial chunk. -/
theorem header_sentinel_mismatch_rejected_witness :
    read_chunk true (header_head_bytes arch32le ++ [0, 0, 0, 0] ++ [1, 2])
      = .error .format_error
    ∧ read_chunk true
        (header_head_bytes arch32le
          ++ encode_uint arch32le.little arch32le.sizeof_lua_integer LUAC_INT
          ++ [1, 2, 3, 4, 5, 6, 7, 8] ++ [9])
      = .error .format_error :=
  ⟨header_sentinel_mismatch_rejected.1 true arch32le [0, 0, 0, 0] [1, 2]
      (by decide) (by decide) (by decide),
    header_sentinel_mismatch_rejected.2 true arch32le
      [1, 2, 3, 4, 5, 6, 7, 8] [9] (by decide) (by decide) (by decide)
      (by decide)⟩
